import Mathlib

/-!
# Verification of the EngineData codec (psd_tools2/psd/engine_data.py)

A shallow embedding of the EngineData tokenizer, classifier, parser and
writer.  Bytes are modelled as `List Nat` (each entry < 256 in practice).
Python text values are modelled as follows:

* `Property` values hold mac-roman code units; mac-roman is a bijection
  between bytes and a subset of Unicode, so we keep the raw byte list
  (encode is the identity, decode is the identity).
* `String` values hold Unicode scalar values (`List Nat` of code points),
  matching the u'' strings produced by `bytes.decode('utf-16')`.
* Python floats are modelled as exact rationals (`ℚ`): every decimal
  literal the parser accepts denotes a rational, and `%.12g` formatting is
  implemented on rationals.  All concrete values examined below are
  exactly representable doubles, where the two notions agree.

Errors (Python exceptions) are modelled with explicit error values in
`Except`: `ValueError`, `StopIteration`, `AttributeError` (from calling
`.frombytes` on `None`), `UnicodeDecodeError`, and the `NameError` /
`TypeError` raised by the writer.
-/

namespace EngineData

/-- Whitespace bytes of `Tokenizer.DIVIDER = re.compile(rb'[ \n\t]+')`. -/
def isWsB (b : Nat) : Bool := b = 32 || b = 10 || b = 9

/-- ASCII alphanumeric, the class `[a-zA-Z0-9]`. -/
def isAlnumB (b : Nat) : Bool :=
  (48 ≤ b && b ≤ 57) || (65 ≤ b && b ≤ 90) || (97 ≤ b && b ≤ 122)

/-- ASCII digit, the class `\d`. -/
def isDigitB (b : Nat) : Bool := 48 ≤ b && b ≤ 57

/-- Does the byte list end with a single newline byte?  Used to model the
Python `$` anchor, which (without `re.M`) matches at the end of the data
or just before a newline at the end of the data. -/
def endsNl : List Nat → Bool
  | [] => false
  | [b] => b = 10
  | _ :: b :: r => endsNl (b :: r)

/-- Model of a Python anchored pattern `^core$`: the core must match the
whole data, or the whole data minus one final newline byte. -/
def dollar (core : List Nat → Bool) (l : List Nat) : Bool :=
  core l || (endsNl l && core l.dropLast)

/-- Core of `ARRAY_END = ^\]$`. -/
def arrayEndCore (l : List Nat) : Bool := l = [93]

/-- Core of `ARRAY_START = ^\[$`. -/
def arrayStartCore (l : List Nat) : Bool := l = [91]

/-- Core of `BOOLEAN = ^(true|false)$`. -/
def booleanCore (l : List Nat) : Bool :=
  l = [116, 114, 117, 101] || l = [102, 97, 108, 115, 101]

/-- All bytes are NUL. -/
def allZero : List Nat → Bool
  | [] => true
  | b :: r => b = 0 && allZero r

/-- Core of `DICT_END = ^>>(\x00)*$` (the "buggy" lenient terminator). -/
def dictEndCore : List Nat → Bool
  | 62 :: 62 :: r => allZero r
  | _ => false

/-- Core of `DICT_START = ^<<$`. -/
def dictStartCore (l : List Nat) : Bool := l = [60, 60]

/-- Core of `NOOP = ^$`. -/
def noopCore (l : List Nat) : Bool := l = []

/-- Nonempty digit run, `\d+`. -/
def digitsCore : List Nat → Bool
  | [] => false
  | [b] => isDigitB b
  | b :: c :: r => isDigitB b && digitsCore (c :: r)

/-- Core of `NUMBER = ^-?\d+$`. -/
def numberCore : List Nat → Bool
  | 45 :: r => digitsCore r
  | l => digitsCore l

/-- `\d*\.\d+`: optional digits, a dot, then at least one digit. -/
def decimalCore : List Nat → Bool
  | [] => false
  | 46 :: r => digitsCore r
  | b :: r => isDigitB b && decimalCore r

/-- Core of `NUMBER_WITH_DECIMAL = ^-?\d*\.\d+$`. -/
def numberDecCore : List Nat → Bool
  | 45 :: r => decimalCore r
  | l => decimalCore l

/-- Nonempty alphanumeric run, `[a-zA-Z0-9]+`. -/
def alnumsCore : List Nat → Bool
  | [] => false
  | [b] => isAlnumB b
  | b :: c :: r => isAlnumB b && alnumsCore (c :: r)

/-- Core of `PROPERTY = ^\/[a-zA-Z0-9]+$`. -/
def propertyCore : List Nat → Bool
  | 47 :: r => alnumsCore r
  | _ => false

/-- Tail of the STRING pattern after `(\xfe\xff`: a sequence of
repetitions of `[^\)]` or `\\\)` followed by the final `\)`.  A `)` byte
can only be consumed as the final delimiter or as the second byte of an
escape pair, which makes the scan deterministic. -/
def strTail : List Nat → Bool
  | [] => false
  | b :: r =>
    if b = 41 then r = []
    else if b = 92 then
      match r with
      | 41 :: r2 => if r2 = [] then true else strTail r2
      | [] => false
      | c :: r2 => strTail (c :: r2)
    else strTail r

/-- Core of `STRING = ^\((\xfe\xff([^\)]|\\\))*)\)$`. -/
def stringCore : List Nat → Bool
  | 40 :: 254 :: 255 :: r => strTail r
  | _ => false

/-- `[a-zA-Z0-9]+\)$` part of the UNKNOWN_TAG pattern. -/
def tagTail : List Nat → Bool
  | [] => false
  | [_] => false
  | [b, 41] => isAlnumB b
  | b :: c :: r => isAlnumB b && tagTail (c :: r)

/-- Core of `UNKNOWN_TAG = ^\([a-zA-Z0-9]+\)$`. -/
def tagCore : List Nat → Bool
  | 40 :: r => tagTail r
  | _ => false

/-- The lexical classes, in the declaration order of `class
EngineToken(Enum)`; the classifier tries them in this order. -/
inductive Cls where
  | ARRAY_END | ARRAY_START | BOOLEAN | DICT_END | DICT_START | NOOP
  | NUMBER | NUMBER_WITH_DECIMAL | PROPERTY | STRING | UNKNOWN_TAG
  deriving DecidableEq

/-- The classifier: the loop `for token_type in EngineToken: if
token_type.value.search(token): return token, token_type` in
`Tokenizer.__next__`, returning `none` when no pattern matches (the
`raise ValueError('Unknown token')` case). -/
def classify (t : List Nat) : Option Cls :=
  if dollar arrayEndCore t then some .ARRAY_END
  else if dollar arrayStartCore t then some .ARRAY_START
  else if dollar booleanCore t then some .BOOLEAN
  else if dollar dictEndCore t then some .DICT_END
  else if dollar dictStartCore t then some .DICT_START
  else if dollar noopCore t then some .NOOP
  else if dollar numberCore t then some .NUMBER
  else if dollar numberDecCore t then some .NUMBER_WITH_DECIMAL
  else if dollar propertyCore t then some .PROPERTY
  else if dollar stringCore t then some .STRING
  else if dollar tagCore t then some .UNKNOWN_TAG
  else none

/-- First match position of `UTF16_END = re.compile(rb'[^\\]\)')`: the
least `i` such that `data[i] ≠ 0x5C` and `data[i+1] = 0x29`. -/
def findU16 : List Nat → Option Nat
  | a :: b :: r =>
    if a ≠ 92 && b = 41 then some 0 else (findU16 (b :: r)).map (· + 1)
  | _ => none

/-- First whitespace position, `DIVIDER.search(...).start()`. -/
def findWsIdx : List Nat → Option Nat
  | [] => none
  | b :: r => if isWsB b then some 0 else (findWsIdx r).map (· + 1)

/-- Length of the leading whitespace run (the regex `[ \n\t]+` is greedy,
so a match starting at the first whitespace byte covers the whole run). -/
def wsLead : List Nat → Nat
  | [] => 0
  | b :: r => if isWsB b then wsLead r + 1 else 0

/-- Errors raised by `Tokenizer.__next__`: `ValueError('Invalid token')`
when a UTF-16 string never terminates, `ValueError('Unknown token')` when
no class pattern matches. -/
inductive TokErr where
  | invalidToken | unknownToken
  deriving DecidableEq

/-- The body of `Tokenizer.__next__` on a buffer that does not start with
whitespace (so the `if token == b'': return self.__next__()` retry cannot
fire): empty buffer raises `StopIteration` (`none`); a buffer starting
with `b'(\xfe\xff'` is scanned with `UTF16_END`, the token runs through
`match.end()` and the buffer is advanced one byte further; otherwise the
token ends at the first whitespace run (or at the end of the buffer) and
the buffer is advanced past the run.  Either way the token is classified,
`None` meaning `raise ValueError('Unknown token')`. -/
def tokenizerBase (data : List Nat) : Except TokErr (Option (List Nat × Cls × List Nat)) :=
  match data with
  | [] => .ok none
  | _ :: _ =>
    if data.take 3 = [40, 254, 255] then
      match findU16 data with
      | none => .error .invalidToken
      | some i =>
        let tok := data.take (i + 2)
        match classify tok with
        | some c => .ok (some (tok, c, data.drop (i + 3)))
        | none => .error .unknownToken
    else
      match findWsIdx data with
      | none =>
        match classify data with
        | some c => .ok (some (data, c, []))
        | none => .error .unknownToken
      | some j =>
        let tok := data.take j
        let rest2 := (data.drop j).drop (wsLead (data.drop j))
        match classify tok with
        | some c => .ok (some (tok, c, rest2))
        | none => .error .unknownToken

/-- One step of `Tokenizer.__next__` over the remaining buffer.  The
empty-token retry of the Python code fires exactly when the buffer starts
with whitespace, and one retry lands just past the leading whitespace run
(the `DIVIDER` regex `[ \n\t]+` is greedy), so the retry loop is the same
computation as stripping leading whitespace first.  A buffer starting
with `b'(\xfe\xff'` is unaffected by the strip since `(` is not
whitespace. -/
def tokenizerNext (data : List Nat) : Except TokErr (Option (List Nat × Cls × List Nat)) :=
  tokenizerBase (data.dropWhile (fun b => isWsB b))

/-! ## Leaf codecs -/

/-- Python `bytes.replace(old, new)` for a single-byte `old`:
non-overlapping left-to-right replacement. -/
def pyReplace1 (l : List Nat) (old : Nat) (new : List Nat) : List Nat :=
  match l with
  | [] => []
  | b :: r => if b = old then new ++ pyReplace1 r old new else b :: pyReplace1 r old new

/-- Python `bytes.replace(b'0.', b'.')`: non-overlapping left-to-right
replacement of the two-byte pattern. -/
def replaceZeroDot : List Nat → List Nat
  | 48 :: 46 :: r => 46 :: replaceZeroDot r
  | b :: r => b :: replaceZeroDot r
  | [] => []

/-- `str.encode('utf-16-be')`: code points to big-endian bytes, with
surrogate pairs for code points above U+FFFF. -/
def utf16beEnc : List Nat → List Nat
  | [] => []
  | cp :: r =>
    if cp < 65536 then cp / 256 :: cp % 256 :: utf16beEnc r
    else
      let v := cp - 65536
      let hi := 55296 + v / 1024
      let lo := 56320 + v % 1024
      hi / 256 :: hi % 256 :: lo / 256 :: lo % 256 :: utf16beEnc r

/-- Strict UTF-16 decoding of a byte list without BOM, `le` selecting the
byte order; `none` models `UnicodeDecodeError` (odd length, lone
surrogate). -/
def decU16 (le : Bool) : List Nat → Option (List Nat)
  | [] => some []
  | [_] => none
  | a :: b :: r =>
    let u := if le then b * 256 + a else a * 256 + b
    if u < 55296 || 57344 ≤ u then (decU16 le r).map (u :: ·)
    else if u < 56320 then
      match r with
      | c :: d :: r2 =>
        let u2 := if le then d * 256 + c else c * 256 + d
        if 56320 ≤ u2 && u2 < 57344 then
          (decU16 le r2).map ((65536 + (u - 55296) * 1024 + (u2 - 56320)) :: ·)
        else none
      | _ => none
    else none

/-- Python `bytes.decode('utf-16')`: honour a BOM if present, otherwise
assume the native order (little-endian on CPython's supported hosts). -/
def utf16Decode (data : List Nat) : Option (List Nat) :=
  if data.take 2 = [254, 255] then decU16 false (data.drop 2)
  else if data.take 2 = [255, 254] then decU16 true (data.drop 2)
  else decU16 true data

/-- `String.frombytes`: strip the surrounding parens (`data[1:-1]`),
remove every backslash byte (`value.replace(b'\\', b'')`), then decode as
UTF-16. -/
def String_frombytes (data : List Nat) : Option (List Nat) :=
  utf16Decode (pyReplace1 (data.drop 1).dropLast 92 [])

/-- `String.write`: UTF-16-BE encode, escape `)` and `(` bytes, surround
with `(` + BOM_UTF16_BE + ... + `)`. -/
def String_write (cps : List Nat) : List Nat :=
  let v := pyReplace1 (pyReplace1 (utf16beEnc cps) 41 [92, 41]) 40 [92, 40]
  40 :: 254 :: 255 :: (v ++ [41])

/-- `Bool.write`: the literal `true` / `false`. -/
def Bool_write (b : Bool) : List Nat :=
  if b then [116, 114, 117, 101] else [102, 97, 108, 115, 101]

/-- Little-endian base-10 digits with explicit fuel (any fuel at least
the digit count — in particular `n` itself — gives the digits of `n`). -/
def digitsRevF : Nat → Nat → List Nat
  | 0, _ => []
  | f + 1, n => if n = 0 then [] else n % 10 :: digitsRevF f (n / 10)

/-- Decimal digits of a natural number, ASCII. -/
def natDecimal (n : Nat) : List Nat :=
  if n = 0 then [48] else (digitsRevF n n).reverse.map (· + 48)

/-- Fueled floor logarithm base 10. -/
def log10F : Nat → Nat → Nat
  | 0, _ => 0
  | f + 1, n => if n < 10 then 0 else log10F f (n / 10) + 1

/-- Floor logarithm base 10 (0 for n = 0). -/
def natLog10 (n : Nat) : Nat := log10F n n

/-- `Integer.write`: `b'%d' % value`. -/
def Integer_write (n : ℤ) : List Nat :=
  if n < 0 then 45 :: natDecimal n.natAbs else natDecimal n.toNat

/-- Value of an ASCII digit string. -/
def parseNatB (l : List Nat) : Nat := l.foldl (fun a b => a * 10 + (b - 48)) 0

/-- `int(data)` on a NUMBER token. -/
def parseIntB (l : List Nat) : ℤ :=
  match l with
  | 45 :: r => -(parseNatB r : ℤ)
  | _ => (parseNatB l : ℤ)

/-- Value of an unsigned decimal literal `iii.fff`: the exact rational
`iii + fff / 10^|fff|`, written over the common denominator. -/
def parseUFloat (l : List Nat) : ℚ :=
  let i := l.takeWhile (· ≠ 46)
  let f := (l.dropWhile (· ≠ 46)).drop 1
  mkRat (parseNatB i * 10 ^ f.length + parseNatB f) (10 ^ f.length)

/-- `float(data)` on a NUMBER_WITH_DECIMAL token (exact rational model of
the decimal literal). -/
def parseFloatB (l : List Nat) : ℚ :=
  match l with
  | 45 :: r => -(parseUFloat r)
  | _ => parseUFloat l

/-- Absolute value on `ℚ` by cases (kept elementary so that concrete
computations reduce in the kernel). -/
def absQ (q : ℚ) : ℚ := if q < 0 then -q else q

/-- Decide `10^e ≤ |q|` using only integer arithmetic. -/
def pow10LeAbs (q : ℚ) (e : ℤ) : Bool :=
  if 0 ≤ e then q.den * 10 ^ e.toNat ≤ q.num.natAbs
  else q.den ≤ q.num.natAbs * 10 ^ (-e).toNat

/-- Greatest `e` with `10^e ≤ |q|`, for `q ≠ 0`.  `natLog10` gives the
answer within one, and the two comparisons pin it down. -/
def decExp (q : ℚ) : ℤ :=
  let e0 : ℤ := (natLog10 q.num.natAbs : ℤ) - (natLog10 q.den : ℤ)
  if pow10LeAbs q (e0 + 1) then e0 + 1
  else if pow10LeAbs q e0 then e0
  else e0 - 1

/-- Round `n / d` to the nearest integer, ties to even (the rounding used
by C's `printf` conversions, hence by Python's `%g`). -/
def halfEvenDiv (n d : Nat) : Nat :=
  let q := n / d
  let r := n % d
  if 2 * r < d then q
  else if 2 * r > d then q + 1
  else if q % 2 = 0 then q else q + 1

/-- 12 significant decimal digits of `|q| ≠ 0`: a mantissa in
`[10^11, 10^12)` and the decimal exponent. -/
def sig12 (q : ℚ) : Nat × ℤ :=
  let e := decExp q
  let s : ℤ := 11 - e
  let m := if 0 ≤ s then halfEvenDiv (q.num.natAbs * 10 ^ s.toNat) q.den
           else halfEvenDiv q.num.natAbs (q.den * 10 ^ (-s).toNat)
  if m < 10 ^ 12 then (m, e) else (10 ^ 11, e + 1)

/-- Strip trailing ASCII `0` bytes. -/
def stripZeros (l : List Nat) : List Nat := (l.reverse.dropWhile (· = 48)).reverse

/-- `b'%.12g' % value`: %g with precision 12 — fixed notation when the
decimal exponent is in `[-4, 12)`, scientific otherwise, with trailing
zeros (and a trailing point) removed. -/
def formatG12 (q : ℚ) : List Nat :=
  if q = 0 then [48]
  else
    let sign : List Nat := if q < 0 then [45] else []
    let p := sig12 q
    let D := natDecimal p.1
    let e := p.2
    if -4 ≤ e ∧ e < 12 then
      if 0 ≤ e then
        let ip := D.take (e.toNat + 1)
        let fp := stripZeros (D.drop (e.toNat + 1))
        sign ++ ip ++ (if fp = [] then [] else 46 :: fp)
      else
        sign ++ [48] ++ 46 :: stripZeros (List.replicate (-(e + 1)).toNat 48 ++ D)
    else
      let t := stripZeros (D.drop 1)
      let mant := D.take 1 ++ (if t = [] then [] else 46 :: t)
      let ea := e.natAbs
      let ed := if ea < 10 then 48 :: natDecimal ea else natDecimal ea
      sign ++ mant ++ [101] ++ (if e < 0 then [45] else [43]) ++ ed

/-- `Float.write`: `%.12g`, then force a decimal point if absent, then
elide the leading zero (`b'0.' → b'.'`) when `0 < |value| < 1`. -/
def Float_write (q : ℚ) : List Nat :=
  let v := formatG12 q
  let v := if v.contains 46 then v else v ++ [46, 48]
  if 0 < absQ q ∧ absQ q < 1 then replaceZeroDot v else v

/-- `Property.write`: `b'/' + value.encode('macroman')` (identifier bytes
kept in mac-roman code units, see the header note). -/
def Property_write (s : List Nat) : List Nat := 47 :: s

/-! ## Element model -/

mutual
/-- The element tree: `Dict`, `List` and the six leaf variants. -/
inductive El where
  | dict (es : Entries)
  | list (xs : Els)
  | str (cps : List Nat)
  | bool (b : Bool)
  | int (n : ℤ)
  | float (q : ℚ)
  | prop (s : List Nat)
  | tag (raw : List Nat)

/-- Ordered `Dict` entries: keys are `Property` identifiers (mac-roman
code units). -/
inductive Entries where
  | nil
  | cons (k : List Nat) (v : El) (rest : Entries)

/-- `List` items. -/
inductive Els where
  | nil
  | cons (v : El) (rest : Els)
end

end EngineData

deriving instance DecidableEq for EngineData.El
deriving instance DecidableEq for EngineData.Entries
deriving instance DecidableEq for EngineData.Els
deriving instance DecidableEq for Except

namespace EngineData

/-- `OrderedDict` assignment `self[key] = value`: replace in place if the
key exists (keeping its position), else append. -/
def setItem : Entries → List Nat → El → Entries
  | .nil, k, v => .cons k v .nil
  | .cons k0 v0 r, k, v =>
    if k0 = k then .cons k0 v r else .cons k0 v0 (setItem r k v)

/-- The element classes registered via `@register(...)`; `TOKEN_CLASSES`
maps a lexical class to one of these (or to nothing). -/
inductive RegCls where
  | rDict | rList | rString | rBool | rInteger | rFloat | rProperty | rTag
  deriving DecidableEq

/-- The constructor registry built by the `@register` decorators.
`ARRAY_END`, `DICT_END` and `NOOP` have no entry. -/
def TOKEN_CLASSES : Cls → Option RegCls
  | .DICT_START => some .rDict
  | .ARRAY_START => some .rList
  | .STRING => some .rString
  | .BOOLEAN => some .rBool
  | .NUMBER => some .rInteger
  | .NUMBER_WITH_DECIMAL => some .rFloat
  | .PROPERTY => some .rProperty
  | .UNKNOWN_TAG => some .rTag
  | _ => none

/-- Parser failures: tokenizer errors, `StopIteration` from
`next(tokenizer)` on an exhausted stream, `ValueError('Invalid token')`
in `Dict.frombytes`, `AttributeError` from `None.frombytes` in
`List.frombytes`, `UnicodeDecodeError` from `String.frombytes`, and fuel
exhaustion of the model (never reached with fuel above the input
length). -/
inductive PErr where
  | tok (e : TokErr) | stopIteration | invalidToken | attributeError
  | unicodeDecode | fuel
  deriving DecidableEq

/-- `kls.frombytes(token)` for a registered leaf class.  The `rDict` /
`rList` cases are unreachable: both parsers dispatch container-start
classes before the registry leaf call. -/
def leafFrombytes : RegCls → List Nat → Except PErr El
  | .rString, t =>
    match String_frombytes t with
    | some cps => .ok (.str cps)
    | none => .error .unicodeDecode
  | .rBool, t => .ok (.bool (t = [116, 114, 117, 101]))
  | .rInteger, t => .ok (.int (parseIntB t))
  | .rFloat, t => .ok (.float (parseFloatB t))
  | .rProperty, t => .ok (.prop (t.filter (· ≠ 47)))
  | .rTag, t => .ok (.tag t)
  | .rDict, _ => .error .invalidToken
  | .rList, _ => .error .invalidToken

mutual
/-- `Dict.frombytes` driven by a shared tokenizer cursor: the returned
byte list is the remaining cursor state.  `fuel` only serves termination;
any value above the input length gives the Python semantics. -/
def parseDict (fuel : Nat) (acc : Entries) (data : List Nat) :
    Except PErr (Entries × List Nat) :=
  match fuel with
  | 0 => .error .fuel
  | f + 1 =>
    match tokenizerNext data with
    | .error e => .error (.tok e)
    | .ok none => .ok (acc, [])
    | .ok (some (t, c, rest)) =>
      if c = .PROPERTY then
        let key := t.filter (· ≠ 47)
        match tokenizerNext rest with
        | .error e => .error (.tok e)
        | .ok none => .error .stopIteration
        | .ok (some (vt, vc, rest2)) =>
          if vc = .ARRAY_START then
            match parseList f rest2 with
            | .error e => .error e
            | .ok (xs, rest3) => parseDict f (setItem acc key (.list xs)) rest3
          else if vc = .DICT_START then
            match parseDict f .nil rest2 with
            | .error e => .error e
            | .ok (es, rest3) => parseDict f (setItem acc key (.dict es)) rest3
          else
            match TOKEN_CLASSES vc with
            | some r =>
              match leafFrombytes r vt with
              | .error e => .error e
              | .ok v => parseDict f (setItem acc key v) rest2
            | none => .error .invalidToken
      else if c = .DICT_END then
        .ok (acc, rest)
      else
        parseDict f acc rest

/-- `List.frombytes` driven by the shared tokenizer cursor. -/
def parseList (fuel : Nat) (data : List Nat) : Except PErr (Els × List Nat) :=
  match fuel with
  | 0 => .error .fuel
  | f + 1 =>
    match tokenizerNext data with
    | .error e => .error (.tok e)
    | .ok none => .ok (.nil, [])
    | .ok (some (t, c, rest)) =>
      if c = .ARRAY_END then .ok (.nil, rest)
      else if c = .ARRAY_START then
        match parseList f rest with
        | .error e => .error e
        | .ok (v, rest2) =>
          match parseList f rest2 with
          | .error e => .error e
          | .ok (xs, rest3) => .ok (.cons (.list v) xs, rest3)
      else if c = .DICT_START then
        match parseDict f .nil rest with
        | .error e => .error e
        | .ok (es, rest2) =>
          match parseList f rest2 with
          | .error e => .error e
          | .ok (xs, rest3) => .ok (.cons (.dict es) xs, rest3)
      else
        match TOKEN_CLASSES c with
        | some r =>
          match leafFrombytes r t with
          | .error e => .error e
          | .ok v =>
            match parseList f rest with
            | .error e => .error e
            | .ok (xs, rest2) => .ok (.cons v xs, rest2)
        | none => .error .attributeError
end

/-- The decode entry point `Dict.frombytes(data)` on raw bytes. -/
def Dict_frombytes (data : List Nat) : Except PErr El :=
  (parseDict (data.length + 1) .nil data).map (fun p => El.dict p.1)

/-! ## Writer -/

/-- Writer failures: the `NameError` in `Tag.write` (undefined name
`value`) and the `TypeError` from passing `indent=` to a leaf `write`
that does not accept it. -/
inductive WErr where
  | nameError | typeError
  deriving DecidableEq

/-- `_write_newline`: newline unless `indent is None`. -/
def nlOf : Option Nat → List Nat
  | none => []
  | some _ => [10]

/-- `_write_indent`: `indent` tabs, or the single-space default when
`indent is None`. -/
def indOf : Option Nat → List Nat
  | none => [32]
  | some k => List.replicate k 9

/-- The container framing written by `Dict.write` around its entry block
(nothing when `write_container` is false): the extra leading newline when
`indent == 0`, a newline, indentation, `<<`, a newline, then after the
body indentation and `>>`. -/
def dictAssemble (indent : Option Nat) (container : Bool) (body : List Nat) : List Nat :=
  if container then
    (if indent = some 0 then nlOf indent else []) ++ nlOf indent ++
      indOf indent ++ [60, 60] ++ nlOf indent ++ body ++ indOf indent ++ [62, 62]
  else body

/-- The framing of `List.write` with `indent=None`: `[`, the items, a
space, `]`. -/
def listInlineAssemble (body : List Nat) : List Nat :=
  91 :: (body ++ [32, 93])

/-- The framing of `List.write` with a numeric indent: `[`, the items, a
newline, `indent` tabs, `]`. -/
def listIndentAssemble (k : Nat) (body : List Nat) : List Nat :=
  91 :: (body ++ [10] ++ List.replicate k 9 ++ [93])

/-- `element.write(fp)` for the six leaf variants.  `Tag.write` raises
`NameError`: its body is `write_bytes(fp, value)` and the name `value` is
undefined.  Containers never reach this function. -/
def leafWriteB : El → Except WErr (List Nat)
  | .str cps => .ok (String_write cps)
  | .bool b => .ok (Bool_write b)
  | .int n => .ok (Integer_write n)
  | .float q => .ok (Float_write q)
  | .prop s => .ok (Property_write s)
  | .tag _ => .error .nameError
  | _ => .error .nameError

mutual
/-- The `for key in self` loop of `Dict.write`: per entry, indentation at
`inner_indent`, the key (`/` + identifier), the value, a newline at
`indent`. -/
def wEntries : Entries → Option Nat → Option Nat → Except WErr (List Nat)
  | .nil, _, _ => .ok []
  | .cons k v r, indent, inner =>
    match wValue v inner with
    | .error e => .error e
    | .ok vb =>
      match wEntries r indent inner with
      | .error e => .error e
      | .ok rb => .ok (indOf inner ++ (47 :: k) ++ vb ++ nlOf indent ++ rb)

/-- The value part of one `Dict.write` entry: a nested `Dict` recurses at
`inner_indent`; any other value gets a leading space, and a `List` value
is written at `inner_indent` only when its first element is a `Dict`,
inline otherwise. -/
def wValue : El → Option Nat → Except WErr (List Nat)
  | .dict es, inner =>
    (wEntries es inner (inner.map (· + 1))).map (dictAssemble inner true)
  | .list xs, inner =>
    let ind := match xs with
               | .cons (.dict _) _ => inner
               | _ => none
    (match ind with
     | none => (wInline xs).map (fun b => 32 :: listInlineAssemble b)
     | some k => (wIndent xs k).map (fun b => 32 :: listIndentAssemble k b))
  | v, _ => (leafWriteB v).map (fun b => 32 :: b)

/-- Inline `List` items (`List.write` with `indent=None`): a `Dict` item
writes itself with `indent=None` (emitting its own leading space); any
other item gets a leading space and its plain `write(fp)`, a nested
`List` item being written inline. -/
def wInline : Els → Except WErr (List Nat)
  | .nil => .ok []
  | .cons v r =>
    match (match v with
           | .dict es => (wEntries es none none).map (dictAssemble none true)
           | .list ys => (wInline ys).map (fun b => 32 :: listInlineAssemble b)
           | v => (leafWriteB v).map (fun b => 32 :: b)) with
    | .error e => .error e
    | .ok vb =>
      match wInline r with
      | .error e => .error e
      | .ok rb => .ok (vb ++ rb)

/-- Indented `List` items: each item is `item.write(fp, indent=indent)`.
Containers and the two integer-like leaves accept the keyword (`Bool` and
`Integer` ignore it); the `write(fp)` signatures of `String`, `Float`,
`Property` and `Tag` reject it with a `TypeError`. -/
def wIndent : Els → Nat → Except WErr (List Nat)
  | .nil, _ => .ok []
  | .cons v r, k =>
    match (match v with
           | .dict es => (wEntries es (some k) (some (k + 1))).map (dictAssemble (some k) true)
           | .list ys => (wIndent ys k).map (listIndentAssemble k)
           | .bool b => .ok (Bool_write b)
           | .int n => .ok (Integer_write n)
           | _ => .error .typeError) with
    | .error e => .error e
    | .ok vb =>
      match wIndent r k with
      | .error e => .error e
      | .ok rb => .ok (vb ++ rb)
end

/-- `Dict.write(fp, indent, write_container)`: the entry block at
`inner_indent = indent if indent is None else indent + 1`, framed by the
container brackets when requested. -/
def Dict_write (es : Entries) (indent : Option Nat) (container : Bool) :
    Except WErr (List Nat) :=
  (wEntries es indent (indent.map (· + 1))).map (dictAssemble indent container)

/-- `List.write(fp, indent)`. -/
def List_write (xs : Els) (indent : Option Nat) : Except WErr (List Nat) :=
  match indent with
  | none => (wInline xs).map listInlineAssemble
  | some k => (wIndent xs k).map (listIndentAssemble k)

/-- `element.write(fp)` with default arguments: `Dict.write` defaults to
`indent=0, write_container=True`, `List.write` to `indent=None`. -/
def El_write_fp (v : El) : Except WErr (List Nat) :=
  match v with
  | .dict es => Dict_write es (some 0) true
  | .list xs => List_write xs none
  | v => leafWriteB v

/-- The encode entry point for the outer container:
`Dict.write(fp)` with its default `indent=0, write_container=True`. -/
def encodeTop (es : Entries) : Except WErr (List Nat) :=
  Dict_write es (some 0) true

/-- Decode of the encoder's output, for round-trip statements. -/
def encodeDecode (es : Entries) : Except WErr (Except PErr El) :=
  (encodeTop es).map Dict_frombytes

/-! ## The safe fragment for the round-trip property -/

/-- Membership of a key among dict entries. -/
def keyMem (k : List Nat) : Entries → Bool
  | .nil => false
  | .cons k0 _ r => k0 = k || keyMem k r

/-- A Unicode scalar value (what a Python `str` element is after a strict
UTF-16 decode): below 0x110000 and not a surrogate. -/
def validScalar (cp : Nat) : Bool :=
  cp < 1114112 && !(55296 ≤ cp && cp < 57344)

/-- A `String` leaf survives the round trip when its text is scalar and
its UTF-16-BE bytes contain no backslash byte (0x5C): the writer does not
escape backslashes but the reader strips every one of them. -/
def safeStr (cps : List Nat) : Bool :=
  cps.all validScalar && !(utf16beEnc cps).contains 92

/-- A token that the tokenizer treats in whitespace-splitting mode and
hands to the classifier unchanged: nonempty, free of whitespace bytes,
and not starting with the UTF-16 marker. -/
def simpleTokB (t : List Nat) : Bool :=
  !t.isEmpty && t.all (fun b => !isWsB b) && t.head? ≠ some 40

/-- A `Float` leaf survives the round trip when its rendering is a plain
decimal-class token that parses back to the same value (this excludes,
for example, magnitudes rendered with an exponent, and values needing
more than 12 significant digits). -/
def floatTokOK (q : ℚ) : Bool :=
  simpleTokB (Float_write q) &&
  classify (Float_write q) = some Cls.NUMBER_WITH_DECIMAL &&
  parseFloatB (Float_write q) = q

mutual
/-- The elements for which the writer output re-parses to the same tree:
`Dict`s are nonempty with distinct nonempty-alphanumeric keys; `List`s
are nonempty, and a `List` whose first item is a `Dict` holds only
`Dict`s (the indented list renderer passes `indent=` to every item, which
only containers and the integer-like leaves accept, and renders
non-container items without separators); `String`s avoid backslash bytes;
`Float`s re-parse from their rendering; `Property` values are nonempty
alphanumeric; `Tag` leaves never encode (`Tag.write` raises). -/
def safeEl : El → Bool
  | .dict es =>
    (match es with
     | .nil => false
     | _ => true) && safeEntries es
  | .list xs =>
    (match xs with
     | .nil => false
     | .cons (.dict _) _ => allDictsSafe xs
     | _ => safeEls xs)
  | .str cps => safeStr cps
  | .bool _ => true
  | .int _ => true
  | .float q => floatTokOK q
  | .prop s => alnumsCore s
  | .tag _ => false

/-- Safety of dict entries: nonempty alphanumeric keys, no duplicates,
safe values. -/
def safeEntries : Entries → Bool
  | .nil => true
  | .cons k v r => alnumsCore k && !keyMem k r && safeEl v && safeEntries r

/-- Safety of list items when the first item is a `Dict`: every item must
be a safe `Dict`. -/
def allDictsSafe : Els → Bool
  | .nil => true
  | .cons (.dict es) r => safeEl (.dict es) && allDictsSafe r
  | .cons _ _ => false

/-- Safety of list items in the inline case. -/
def safeEls : Els → Bool
  | .nil => true
  | .cons v r => safeEl v && safeEls r
end

/-! ## The Dict deletion surface (for the `del` statement) -/

/-- Python dict keys that reach the base `DictElement` mapping: either a
plain `str` (mac-roman code units) or a `Property` element.  `attrs`
value equality never identifies a `Property` with a plain string, so the
two constructors never compare equal. -/
inductive PyKey where
  | pstr (s : List Nat)
  | pprop (s : List Nat)
  deriving DecidableEq

/-- `KeyError` raised by `OrderedDict.__delitem__` on a missing key. -/
inductive KeyErr where
  | keyError
  deriving DecidableEq

/-- Modelled from the spec: the base class `DictElement.__delitem__`
(psd_tools2.psd.base, not under src/) is the plain ordered-mapping delete
on the exact key of the spec's `Dict` tree-access surface; no key
wrapping happens at this level (wrapping is the engine `Dict` subclass's
job). -/
def DictElement_delitem : List (PyKey × El) → PyKey → Except KeyErr (List (PyKey × El))
  | [], _ => .error .keyError
  | (k0, v0) :: r, k =>
    if k0 = k then .ok r
    else
      match DictElement_delitem r k with
      | .ok r2 => .ok ((k0, v0) :: r2)
      | .error e => .error e

/-- What `del d[key]` actually runs on an engine `Dict` with a plain
string key: the override in the source is misspelled `__detitem__`, so
Python dispatches `del` straight to the base `__delitem__` with the raw
string key — no auto-wrap to `Property` happens. -/
def Dict_del_dispatch (d : List (PyKey × El)) (s : List Nat) :
    Except KeyErr (List (PyKey × El)) :=
  DictElement_delitem d (.pstr s)

/-- `Dict.__detitem__` as written in the source (never reached by the
`del` statement): wrap a plain string key into a `Property`, then
delegate to the base delete. -/
def Dict_detitem (d : List (PyKey × El)) (s : List Nat) :
    Except KeyErr (List (PyKey × El)) :=
  DictElement_delitem d (.pprop s)

end EngineData


namespace EngineData

/-! ## Derived parsing combinators and helpers for the proofs -/

/-- The value branch of `Dict.frombytes` after a key has been read: pull
one token and either recurse into a container or decode a registered
leaf.  `parseDict` unfolds through this (see
`parseDict_property_step`). -/
def parseValue (f : Nat) (data : List Nat) : Except PErr (El × List Nat) :=
  match tokenizerNext data with
  | .error e => .error (.tok e)
  | .ok none => .error .stopIteration
  | .ok (some (vt, vc, rest2)) =>
    if vc = .ARRAY_START then
      (parseList f rest2).map (fun p => (El.list p.1, p.2))
    else if vc = .DICT_START then
      (parseDict f .nil rest2).map (fun p => (El.dict p.1, p.2))
    else
      match TOKEN_CLASSES vc with
      | some r => (leafFrombytes r vt).map (fun v => (v, rest2))
      | none => .error .invalidToken

/-- Concatenation of entry blocks. -/
def appendEntries : Entries → Entries → Entries
  | .nil, e2 => e2
  | .cons k v r, e2 => .cons k v (appendEntries r e2)

/-- Concatenation of item blocks. -/
def appendEls : Els → Els → Els
  | .nil, e2 => e2
  | .cons v r, e2 => .cons v (appendEls r e2)

/-- No key of the first block occurs in the second. -/
def disjointKeys : Entries → Entries → Bool
  | .nil, _ => true
  | .cons k _ r, pre => !keyMem k pre && disjointKeys r pre

/-- The per-byte effect of the two escape replacements in
`String.write`. -/
def escByte (b : Nat) : List Nat :=
  if b = 41 then [92, 41] else if b = 40 then [92, 40] else [b]

/-- The escape replacements of `String.write`, byte by byte. -/
def escBytes : List Nat → List Nat
  | [] => []
  | b :: r => escByte b ++ escBytes r

/-- Every adjacent byte pair fails the `UTF16_END` two-byte pattern: no
close-paren byte is preceded by a non-backslash byte. -/
def pairsOK : List Nat → Bool
  | u :: v :: r => !(u ≠ 92 && v = 41) && pairsOK (v :: r)
  | _ => true

/-! ## Helper lemmas -/

theorem pyReplace1_del_filter (l : List Nat) (b : Nat) :
    pyReplace1 l b [] = l.filter (fun x => x ≠ b) := by
  induction l with
  | nil => rfl
  | cons c r ih =>
    by_cases h : c = b <;> simp [pyReplace1, h, ih]

theorem allZero_replicate (n : Nat) : allZero (List.replicate n 0) = true := by
  induction n with
  | zero => rfl
  | succ n ih => simpa [List.replicate, allZero] using ih

theorem endsNl_of_ne (l : List Nat) (h : ∀ x ∈ l, x ≠ 10) : endsNl l = false := by
  induction l with
  | nil => rfl
  | cons b r ih =>
    cases r with
    | nil => simpa [endsNl] using h b (by simp)
    | cons c r2 =>
      simpa [endsNl] using ih (fun x hx => h x (by simp [hx]))

theorem findWsIdx_none (l : List Nat) (h : ∀ x ∈ l, isWsB x = false) :
    findWsIdx l = none := by
  induction l with
  | nil => rfl
  | cons b r ih =>
    simp [findWsIdx, h b (by simp), ih (fun x hx => h x (by simp [hx]))]

/-! ## Theorems for the claims -/

/-- C2: encoding a `Tag` element does not output the captured raw bytes:
`Tag.write` refers to the undefined name `value` (instead of
`self.value`), so writing any `Tag` — on its own or inside a tree —
raises `NameError` and encoding aborts. -/
theorem c2_tag_write_raises :
    (∀ raw : List Nat, El_write_fp (.tag raw) = .error .nameError) ∧
    encodeTop (.cons [97] (.tag [104, 119, 105, 100]) .nil) = .error .nameError :=
  ⟨fun _ => rfl, by decide⟩

/-- C3: during dict decoding, a `Property` token followed by an exhausted
token stream aborts decoding with an error (the `StopIteration` raised by
`next(tokenizer)` propagates out of `Dict.frombytes`); no tree is
returned. -/
theorem c3_property_exhausted_fails (f : Nat) (acc : Entries)
    (data t rest : List Nat)
    (h1 : tokenizerNext data = .ok (some (t, .PROPERTY, rest)))
    (h2 : tokenizerNext rest = .ok none) :
    parseDict (f + 1) acc data = .error .stopIteration := by
  simp [parseDict, h1, h2]

theorem c3_witness :
    parseDict 1 .nil [47, 97] = .error .stopIteration :=
  c3_property_exhausted_fails 0 .nil [47, 97] [47, 97] []
    (by decide) (by decide)

/-- C5: float rendering quirks, byte for byte: `0.5` renders as `.5`,
`-0.25` as `-.25`, `2.0` as `2.0` (decimal point forced), `1.5` as `1.5`
(no leading-zero elision at magnitude ≥ 1). -/
theorem c5_float_rendering :
    Float_write (mkRat 1 2) = [46, 53] ∧
    Float_write (mkRat (-1) 4) = [45, 46, 50, 53] ∧
    Float_write (mkRat 2 1) = [50, 46, 48] ∧
    Float_write (mkRat 3 2) = [49, 46, 53] := by
  decide

/-- C8: `del d['A']` on a `Dict` holding the key `Property('A')` raises
`KeyError` instead of deleting the entry: the override that would wrap
the string key is misspelled `__detitem__`, so `del` dispatches to the
plain base delete with the unwrapped string key, which matches nothing.
The misspelled method itself (second conjunct) performs the wrap and
would succeed. -/
theorem c8_delete_string_key_fails :
    Dict_del_dispatch [(.pprop [65], .bool true)] [65] = .error .keyError ∧
    Dict_detitem [(.pprop [65], .bool true)] [65] = .ok [] := by
  decide

/-- C9: during dict decoding, a successfully classified token at key
position whose class is neither `Property` nor `DictEnd` is silently
discarded: the loop just continues on the remaining stream, adding no
entry and raising no error. -/
theorem c9_stray_key_token_skipped (f : Nat) (acc : Entries)
    (data t rest : List Nat) (c : Cls)
    (h : tokenizerNext data = .ok (some (t, c, rest)))
    (hp : c ≠ .PROPERTY) (hd : c ≠ .DICT_END) :
    parseDict (f + 1) acc data = parseDict f acc rest := by
  simp [parseDict, h, hp, hd]

theorem c9_witness :
    parseDict 2 .nil [116, 114, 117, 101, 32, 62, 62] =
      parseDict 1 .nil [62, 62] :=
  c9_stray_key_token_skipped 1 .nil [116, 114, 117, 101, 32, 62, 62]
    [116, 114, 117, 101] [62, 62] .BOOLEAN
    (by decide) (by decide) (by decide)

/-- C10: `String.frombytes` removes every backslash byte from the token
interior before the UTF-16 decode — not only delimiter escapes.
Concretely, the token holding `U+5C5C` followed by `a` (interior bytes
`5C 5C 00 61`) decodes to just `a`: the two backslash bytes that are
UTF-16 character data are dropped. -/
theorem c10_backslashes_stripped :
    (∀ data : List Nat,
      String_frombytes data =
        utf16Decode (((data.drop 1).dropLast).filter (fun b => b ≠ 92))) ∧
    String_frombytes [40, 254, 255, 92, 92, 0, 97, 41] = some [97] := by
  refine ⟨fun data => ?_, by decide⟩
  unfold String_frombytes
  rw [pyReplace1_del_filter]

end EngineData

namespace EngineData

/-- C4: a value-position token whose class has no registry entry (and is
not a container start — no unregistered class is one) aborts decoding in
both parsers.  `Dict.frombytes` raises the explicit
`ValueError('Invalid token')`; `List.frombytes` has no such guard and
crashes on `kls.frombytes` with `kls = None` (`AttributeError`).  Both
are decode failures; no tree is returned. -/
theorem c4_unregistered_value_fails :
    (∀ (f : Nat) (acc : Entries) (data t rest vt rest2 : List Nat) (vc : Cls),
      tokenizerNext data = .ok (some (t, .PROPERTY, rest)) →
      tokenizerNext rest = .ok (some (vt, vc, rest2)) →
      TOKEN_CLASSES vc = none →
      parseDict (f + 1) acc data = .error .invalidToken) ∧
    (∀ (f : Nat) (data t rest : List Nat) (vc : Cls),
      tokenizerNext data = .ok (some (t, vc, rest)) →
      TOKEN_CLASSES vc = none →
      vc ≠ .ARRAY_END →
      parseList (f + 1) data = .error .attributeError) := by
  constructor
  · intro f acc data t rest vt rest2 vc hk hv hreg
    cases vc <;> simp_all [parseDict, TOKEN_CLASSES]
  · intro f data t rest vc h hreg hne
    cases vc <;> simp_all [parseList, TOKEN_CLASSES]

theorem c4_witness :
    parseDict 1 .nil [47, 97, 32, 62, 62] = .error .invalidToken ∧
    parseList 1 [62, 62] = .error .attributeError :=
  ⟨c4_unregistered_value_fails.1 0 .nil [47, 97, 32, 62, 62] [47, 97]
      [62, 62] [62, 62] [] .DICT_END (by decide) (by decide) (by decide),
    c4_unregistered_value_fails.2 0 [62, 62] [62, 62] [] .DICT_END
      (by decide) (by decide) (by decide)⟩

end EngineData

namespace EngineData

theorem classify_dict_end_nuls (n : Nat) :
    classify (62 :: 62 :: List.replicate n 0) = some .DICT_END := by
  have hnl : endsNl (62 :: 62 :: List.replicate n 0) = false := by
    apply endsNl_of_ne
    intro x hx
    simp only [List.mem_cons, List.mem_replicate] at hx
    rcases hx with h | h | h <;> omega
  unfold classify dollar
  simp [hnl, arrayEndCore, arrayStartCore, booleanCore, dictEndCore,
    dictStartCore, noopCore, numberCore, numberDecCore, digitsCore,
    decimalCore, isDigitB, allZero_replicate]

theorem tokenizerNext_dict_end_nuls (n : Nat) :
    tokenizerNext (62 :: 62 :: List.replicate n 0) =
      .ok (some (62 :: 62 :: List.replicate n 0, .DICT_END, [])) := by
  have hws : findWsIdx (62 :: 62 :: List.replicate n 0) = none := by
    apply findWsIdx_none
    intro x hx
    simp only [List.mem_cons, List.mem_replicate] at hx
    rcases hx with h | h | h
    · subst h; rfl
    · subst h; rfl
    · rw [h.2]; rfl
  unfold tokenizerNext tokenizerBase
  simp [List.dropWhile, isWsB, hws, classify_dict_end_nuls n, List.take_cons]

/-- C6: a token of `>>` followed by any number of trailing NUL bytes is
classified as `DictEnd`, and pulling such a token at key position
terminates the enclosing dict: `Dict.frombytes` returns the accumulated
entries. -/
theorem c6_dict_end_trailing_nuls (n f : Nat) (acc : Entries) :
    classify (62 :: 62 :: List.replicate n 0) = some .DICT_END ∧
    parseDict (f + 1) acc (62 :: 62 :: List.replicate n 0) = .ok (acc, []) := by
  refine ⟨classify_dict_end_nuls n, ?_⟩
  simp [parseDict, tokenizerNext_dict_end_nuls n]

end EngineData

namespace EngineData

/-- C7 counterexample: on the buffer `(\xfe\xffa) /b` the closing
delimiter sits at position `p = 4`; the claim says the remaining buffer
afterwards begins at `p + 1` (`List.drop 5`, which still holds the space
byte), but the tokenizer leaves `[47, 98]`, i.e. it resumes at `p + 2`. -/
theorem c7_counterexample :
    tokenizerNext [40, 254, 255, 97, 41, 32, 47, 98] =
      .ok (some ([40, 254, 255, 97, 41], .STRING, [47, 98])) ∧
    ([47, 98] : List Nat) ≠ List.drop 5 [40, 254, 255, 97, 41, 32, 47, 98] := by
  decide

/-- C7 amended: when the buffer starts with the String marker and the
`UTF16_END` scan first matches at `i` (so the closing delimiter is at
position `p = i + 1`), `next()` yields the token spanning the buffer
start through `p` inclusive, and the remaining buffer afterwards begins
two bytes past the delimiter, at `p + 2` — the byte right after the
delimiter is skipped. -/
theorem c7_string_token_span (data : List Nat) (i : Nat) (c : Cls)
    (hpre : data.take 3 = [40, 254, 255])
    (hfind : findU16 data = some i)
    (hcls : classify (data.take (i + 2)) = some c) :
    tokenizerNext data = .ok (some (data.take (i + 2), c, data.drop (i + 3))) := by
  have hd : data.dropWhile (fun b => isWsB b) = data := by
    cases data with
    | nil => rfl
    | cons b r =>
      have hb : b = 40 := by
        simpa [List.take] using congrArg (fun l => l.headD 0) hpre
      subst hb
      simp [List.dropWhile, isWsB]
  unfold tokenizerNext
  rw [hd]
  cases data with
  | nil => simp at hpre
  | cons b r =>
    unfold tokenizerBase
    simp only [hpre, if_pos, hfind, hcls]

theorem c7_span_witness :
    tokenizerNext [40, 254, 255, 97, 41, 32, 47, 98] =
      .ok (some (List.take 5 [40, 254, 255, 97, 41, 32, 47, 98], .STRING,
                 List.drop 6 [40, 254, 255, 97, 41, 32, 47, 98])) :=
  c7_string_token_span [40, 254, 255, 97, 41, 32, 47, 98] 3 .STRING
    (by decide) (by decide) (by decide)

end EngineData

namespace EngineData

/-! ## Whitespace and congruence lemmas -/

theorem drop_wsLead (l : List Nat) :
    l.drop (wsLead l) = l.dropWhile (fun b => isWsB b) := by
  induction l with
  | nil => rfl
  | cons b r ih =>
    by_cases hb : isWsB b
    · simp [wsLead, List.dropWhile, hb, ih]
    · simp [wsLead, List.dropWhile, hb]

theorem dropWhile_ws_append (ws data : List Nat) (h : ∀ x ∈ ws, isWsB x = true) :
    (ws ++ data).dropWhile (fun b => isWsB b) = data.dropWhile (fun b => isWsB b) := by
  induction ws with
  | nil => rfl
  | cons b r ih =>
    simp [List.dropWhile, h b (by simp), ih (fun x hx => h x (by simp [hx]))]

theorem dropWhile_ws_idem (l : List Nat) :
    (l.dropWhile (fun b => isWsB b)).dropWhile (fun b => isWsB b) =
      l.dropWhile (fun b => isWsB b) := by
  induction l with
  | nil => rfl
  | cons b r ih => by_cases hb : isWsB b <;> simp [List.dropWhile, hb, ih]

theorem tokenizerNext_ws_append (ws data : List Nat)
    (h : ∀ x ∈ ws, isWsB x = true) :
    tokenizerNext (ws ++ data) = tokenizerNext data := by
  unfold tokenizerNext
  rw [dropWhile_ws_append ws data h]

theorem tokenizerNext_dropWhile (data : List Nat) :
    tokenizerNext (data.dropWhile (fun b => isWsB b)) = tokenizerNext data := by
  unfold tokenizerNext
  rw [dropWhile_ws_idem]

theorem parseDict_congr_tok (f : Nat) (acc : Entries) (d1 d2 : List Nat)
    (h : tokenizerNext d1 = tokenizerNext d2) :
    parseDict f acc d1 = parseDict f acc d2 := by
  cases f with
  | zero => rfl
  | succ g => unfold parseDict; rw [h]

theorem parseList_congr_tok (f : Nat) (d1 d2 : List Nat)
    (h : tokenizerNext d1 = tokenizerNext d2) :
    parseList f d1 = parseList f d2 := by
  cases f with
  | zero => rfl
  | succ g => unfold parseList; rw [h]

theorem parseValue_congr_tok (f : Nat) (d1 d2 : List Nat)
    (h : tokenizerNext d1 = tokenizerNext d2) :
    parseValue f d1 = parseValue f d2 := by
  unfold parseValue; rw [h]

/-! ## Tokenizer composition lemmas -/

theorem findWsIdx_append_ws (t : List Nat) (b : Nat) (r : List Nat)
    (ht : ∀ x ∈ t, isWsB x = false) (hb : isWsB b = true) :
    findWsIdx (t ++ b :: r) = some t.length := by
  induction t with
  | nil => simp [findWsIdx, hb]
  | cons c t2 ih =>
    simp [findWsIdx, ht c (by simp), ih (fun x hx => ht x (by simp [hx]))]

theorem tokenizerNext_simple (t rest : List Nat) (c : Cls)
    (hne : t ≠ [])
    (hws : ∀ x ∈ t, isWsB x = false)
    (h40 : t.head? ≠ some 40)
    (hcls : classify t = some c)
    (hrest : rest = [] ∨ isWsB (rest.headD 0) = true) :
    tokenizerNext (t ++ rest) =
      .ok (some (t, c, rest.dropWhile (fun b => isWsB b))) := by
  obtain ⟨b, t2, rfl⟩ : ∃ b t2, t = b :: t2 := by
    cases t with
    | nil => exact absurd rfl hne
    | cons x xs => exact ⟨_, _, rfl⟩
  have hb40 : b ≠ 40 := by simpa using h40
  have hbws : isWsB b = false := hws b (by simp)
  unfold tokenizerNext
  have hdw : ((b :: t2) ++ rest).dropWhile (fun x => isWsB x) = (b :: t2) ++ rest := by
    simp [List.dropWhile, hbws]
  rw [hdw, show (b :: t2) ++ rest = b :: (t2 ++ rest) from rfl]
  have htk : ¬ ((b :: (t2 ++ rest)).take 3 = [40, 254, 255]) := by
    intro hcontra
    exact hb40 (by simpa [List.take] using congrArg (fun l => l.headD 0) hcontra)
  rcases hrest with h0 | hwsr
  · subst h0
    have hfw : findWsIdx (b :: (t2 ++ [])) = none := by
      rw [List.append_nil]; exact findWsIdx_none _ hws
    simp only [tokenizerBase, if_neg htk, hfw]
    rw [List.append_nil]
    simp [hcls]
  · obtain ⟨w, r2, rfl⟩ : ∃ w r2, rest = w :: r2 := by
      cases rest with
      | nil => simp [isWsB] at hwsr
      | cons x xs => exact ⟨_, _, rfl⟩
    have hfw : findWsIdx (b :: (t2 ++ w :: r2)) = some (b :: t2).length := by
      rw [show b :: (t2 ++ w :: r2) = (b :: t2) ++ w :: r2 from rfl]
      exact findWsIdx_append_ws _ w r2 hws (by simpa using hwsr)
    have h1 : (b :: (t2 ++ w :: r2)).take (b :: t2).length = b :: t2 :=
      List.take_left _ _
    have h2 : (b :: (t2 ++ w :: r2)).drop (b :: t2).length = w :: r2 :=
      List.drop_left _ _
    simp only [tokenizerBase, if_neg htk, hfw, h1, h2, hcls, drop_wsLead]

end EngineData

namespace EngineData

theorem findU16_skip (a b : Nat) (l : List Nat) (h : ¬(a ≠ 92 ∧ b = 41)) :
    findU16 (a :: b :: l) = (findU16 (b :: l)).map (· + 1) := by
  simp only [findU16]
  rw [if_neg (by simpa using h)]

theorem findU16_before_end (l rest : List Nat)
    (hne : l ≠ []) (hp : pairsOK l = true)
    (hlast : ∀ z, l.getLast? = some z → z ≠ 92) :
    findU16 (l ++ 41 :: rest) = some (l.length - 1) := by
  induction l with
  | nil => exact absurd rfl hne
  | cons u l2 ih =>
    cases l2 with
    | nil =>
      have hu : u ≠ 92 := hlast u (by simp)
      simp [findU16, hu]
    | cons v l3 =>
      have hpair : ¬(u ≠ 92 ∧ v = 41) := by
        intro ⟨h1, h2⟩
        simp [pairsOK, h1, h2] at hp
      have hp2 : pairsOK (v :: l3) = true := by
        simp [pairsOK] at hp
        exact hp.2
      have hlast2 : ∀ z, (v :: l3).getLast? = some z → z ≠ 92 := by
        intro z hz
        exact hlast z (by rwa [List.getLast?_cons_cons])
      rw [show (u :: v :: l3) ++ 41 :: rest = u :: v :: (l3 ++ 41 :: rest) from rfl]
      rw [findU16_skip u v _ hpair]
      rw [show v :: (l3 ++ 41 :: rest) = (v :: l3) ++ 41 :: rest from rfl]
      rw [ih (by simp) hp2 hlast2]
      simp

end EngineData

namespace EngineData

/-- The tokenizer on a well-escaped UTF-16 string token followed by more
bytes: the token is taken whole, and one extra byte after the closing
paren is consumed. -/
theorem tokenizerNext_utf16 (mid rest : List Nat) (c : Cls)
    (hp : pairsOK (255 :: mid) = true)
    (hlast : ∀ z, (255 :: mid).getLast? = some z → z ≠ 92)
    (hcls : classify (40 :: 254 :: 255 :: (mid ++ [41])) = some c) :
    tokenizerNext ((40 :: 254 :: 255 :: (mid ++ [41])) ++ rest) =
      .ok (some (40 :: 254 :: 255 :: (mid ++ [41]), c, rest.drop 1)) := by
  have hassoc : (40 :: 254 :: 255 :: (mid ++ [41])) ++ rest =
      40 :: 254 :: 255 :: (mid ++ 41 :: rest) := by simp
  have hfind : findU16 (40 :: 254 :: 255 :: (mid ++ 41 :: rest)) =
      some (mid.length + 2) := by
    rw [show 40 :: 254 :: 255 :: (mid ++ 41 :: rest) =
      40 :: 254 :: ((255 :: mid) ++ 41 :: rest) from by simp]
    rw [findU16_skip 40 254 _ (by omega)]
    rw [show (254 : Nat) :: ((255 :: mid) ++ 41 :: rest) =
      254 :: 255 :: (mid ++ 41 :: rest) from by simp]
    rw [findU16_skip 254 255 _ (by omega)]
    rw [show (255 : Nat) :: (mid ++ 41 :: rest) = (255 :: mid) ++ 41 :: rest from rfl]
    rw [findU16_before_end _ rest (by simp) hp hlast]
    simp
  unfold tokenizerNext
  rw [hassoc]
  have hdw : (40 :: 254 :: 255 :: (mid ++ 41 :: rest)).dropWhile (fun x => isWsB x) =
      40 :: 254 :: 255 :: (mid ++ 41 :: rest) := by
    simp [List.dropWhile, isWsB]
  rw [hdw]
  have htake3 : (40 :: 254 :: 255 :: (mid ++ 41 :: rest)).take 3 = [40, 254, 255] := by
    simp [List.take]
  have hlen : (40 :: 254 :: 255 :: (mid ++ [41])).length = mid.length + 4 := by simp
  have htk : (40 :: 254 :: 255 :: (mid ++ 41 :: rest)).take (mid.length + 2 + 2) =
      40 :: 254 :: 255 :: (mid ++ [41]) := by
    rw [← hassoc, show mid.length + 2 + 2 = (40 :: 254 :: 255 :: (mid ++ [41])).length from by simp]
    exact List.take_left _ _
  have hdrop : (40 :: 254 :: 255 :: (mid ++ 41 :: rest)).drop (mid.length + 2 + 3) =
      rest.drop 1 := by
    rw [← hassoc, show mid.length + 2 + 3 = (40 :: 254 :: 255 :: (mid ++ [41])).length + 1 from by simp]
    exact List.drop_append 1
  simp only [tokenizerBase, htake3, if_pos, hfind, htk, hdrop, hcls]

end EngineData

namespace EngineData

/-! ## Classifier evaluation lemmas -/

theorem dollar_eq_core (core : List Nat → Bool) (l : List Nat)
    (h : endsNl l = false) : dollar core l = core l := by
  simp [dollar, h]

theorem endsNl_false_of_getLast (l : List Nat) (h : l.getLast? ≠ some 10) :
    endsNl l = false := by
  induction l with
  | nil => rfl
  | cons b r ih =>
    cases r with
    | nil => simpa [endsNl] using h
    | cons c r2 =>
      rw [show endsNl (b :: c :: r2) = endsNl (c :: r2) from rfl]
      exact ih (by rwa [List.getLast?_cons_cons] at h)

theorem digitsCore_of_all (l : List Nat) (hne : l ≠ [])
    (h : ∀ x ∈ l, isDigitB x = true) : digitsCore l = true := by
  induction l with
  | nil => exact absurd rfl hne
  | cons b r ih =>
    cases r with
    | nil => simpa [digitsCore] using h b (by simp)
    | cons c r2 =>
      simp only [digitsCore, Bool.and_eq_true]
      exact ⟨h b (by simp), ih (by simp) (fun x hx => h x (by simp [hx]))⟩

theorem alnumsCore_mem (l : List Nat) (h : alnumsCore l = true) :
    ∀ x ∈ l, isAlnumB x = true := by
  induction l with
  | nil => simp
  | cons b r ih =>
    cases r with
    | nil =>
      intro x hx
      simp only [List.mem_singleton] at hx
      subst hx
      simpa [alnumsCore] using h
    | cons c r2 =>
      simp only [alnumsCore, Bool.and_eq_true] at h
      intro x hx
      rcases List.mem_cons.mp hx with rfl | hx2
      · exact h.1
      · exact ih h.2 x hx2

theorem alnumsCore_ne_nil (l : List Nat) (h : alnumsCore l = true) : l ≠ [] := by
  intro hq; subst hq; simp [alnumsCore] at h

theorem classify_digits_core (ds : List Nat) (hne : ds ≠ [])
    (h : ∀ x ∈ ds, isDigitB x = true) :
    classify ds = some .NUMBER ∧ classify (45 :: ds) = some .NUMBER := by
  obtain ⟨d, r, rfl⟩ : ∃ d r, ds = d :: r := by
    cases ds with
    | nil => exact absurd rfl hne
    | cons x xs => exact ⟨_, _, rfl⟩
  have hd : isDigitB d = true := h d (by simp)
  have hd' : 48 ≤ d ∧ d ≤ 57 := by simpa [isDigitB] using hd
  have hno10 : ∀ x ∈ d :: r, x ≠ 10 := by
    intro x hx
    have := h x hx
    simp [isDigitB] at this
    omega
  have hnl : endsNl (d :: r) = false := endsNl_of_ne _ hno10
  have hnl2 : endsNl (45 :: d :: r) = false :=
    endsNl_of_ne _ (by
      intro x hx
      rcases List.mem_cons.mp hx with rfl | hx2
      · omega
      · exact hno10 x hx2)
  have hdc : digitsCore (d :: r) = true := digitsCore_of_all _ (by simp) h
  have hae : arrayEndCore (d :: r) = false := by
    simp only [arrayEndCore, decide_eq_false_iff_not]
    intro hq
    have : d = 93 := by simpa using congrArg (fun l => l.headD 0) hq
    omega
  have has : arrayStartCore (d :: r) = false := by
    simp only [arrayStartCore, decide_eq_false_iff_not]
    intro hq
    have : d = 91 := by simpa using congrArg (fun l => l.headD 0) hq
    omega
  have hbo : booleanCore (d :: r) = false := by
    simp only [booleanCore, Bool.or_eq_false_iff, decide_eq_false_iff_not]
    constructor
    · intro hq
      have : d = 116 := by simpa using congrArg (fun l => l.headD 0) hq
      omega
    · intro hq
      have : d = 102 := by simpa using congrArg (fun l => l.headD 0) hq
      omega
  have hde : dictEndCore (d :: r) = false := by
    unfold dictEndCore
    split
    · rename_i heq
      have : d = 62 := by simpa using congrArg (fun l => l.headD 0) heq
      omega
    · rfl
  have hds : dictStartCore (d :: r) = false := by
    simp only [dictStartCore, decide_eq_false_iff_not]
    intro hq
    have : d = 60 := by simpa using congrArg (fun l => l.headD 0) hq
    omega
  have hnoop : noopCore (d :: r) = false := by simp [noopCore]
  have hnum : numberCore (d :: r) = true := by
    unfold numberCore
    split
    · rename_i heq
      have hd45 : d = 45 := by simpa using congrArg (fun l => l.headD 0) heq
      omega
    · exact hdc
  constructor
  · unfold classify
    simp only [dollar_eq_core _ _ hnl, hae, has, hbo, hde, hds, hnoop, hnum]
    rfl
  · have hae2 : arrayEndCore (45 :: d :: r) = false := by simp [arrayEndCore]
    have has2 : arrayStartCore (45 :: d :: r) = false := by simp [arrayStartCore]
    have hbo2 : booleanCore (45 :: d :: r) = false := by simp [booleanCore]
    have hde2 : dictEndCore (45 :: d :: r) = false := by
      unfold dictEndCore
      split
      · rename_i heq
        have : (45 : Nat) = 62 := by simpa using congrArg (fun l => l.headD 0) heq
        omega
      · rfl
    have hds2 : dictStartCore (45 :: d :: r) = false := by simp [dictStartCore]
    have hnoop2 : noopCore (45 :: d :: r) = false := by simp [noopCore]
    have hnum2 : numberCore (45 :: d :: r) = true := by
      unfold numberCore
      split
      · rename_i heq
        obtain rfl : d :: r = _ := by injection heq
        exact hdc
      · rename_i hno
        exact absurd rfl (hno (d :: r))
    unfold classify
    simp only [dollar_eq_core _ _ hnl2, hae2, has2, hbo2, hde2, hds2, hnoop2, hnum2]
    rfl

end EngineData

namespace EngineData

theorem classify_property_tok (s : List Nat) (hs : alnumsCore s = true) :
    classify (47 :: s) = some .PROPERTY := by
  obtain ⟨c0, s2, rfl⟩ : ∃ c0 s2, s = c0 :: s2 := by
    cases s with
    | nil => simp [alnumsCore] at hs
    | cons x xs => exact ⟨_, _, rfl⟩
  have halnum := alnumsCore_mem _ hs
  have hnl : endsNl (47 :: c0 :: s2) = false := by
    apply endsNl_of_ne
    intro x hx
    rcases List.mem_cons.mp hx with rfl | hx2
    · omega
    · have := halnum x hx2
      simp [isAlnumB] at this
      omega
  have hc0 : isAlnumB c0 = true := halnum c0 (by simp)
  have hc0' : ¬ isDigitB (47 : Nat) = true := by decide
  unfold classify
  have h1 : arrayEndCore (47 :: c0 :: s2) = false := by simp [arrayEndCore]
  have h2 : arrayStartCore (47 :: c0 :: s2) = false := by simp [arrayStartCore]
  have h3 : booleanCore (47 :: c0 :: s2) = false := by simp [booleanCore]
  have h4 : dictEndCore (47 :: c0 :: s2) = false := by
    unfold dictEndCore
    split
    · rename_i heq
      have : (47 : Nat) = 62 := by simpa using congrArg (fun l => l.headD 0) heq
      omega
    · rfl
  have h5 : dictStartCore (47 :: c0 :: s2) = false := by simp [dictStartCore]
  have h6 : noopCore (47 :: c0 :: s2) = false := by simp [noopCore]
  have h7 : numberCore (47 :: c0 :: s2) = false := by
    unfold numberCore
    split
    · rename_i heq
      have : (47 : Nat) = 45 := by simpa using congrArg (fun l => l.headD 0) heq
      omega
    · simp [digitsCore, isDigitB]
  have h8 : numberDecCore (47 :: c0 :: s2) = false := by
    unfold numberDecCore
    split
    · rename_i heq
      have : (47 : Nat) = 45 := by simpa using congrArg (fun l => l.headD 0) heq
      omega
    · simp [decimalCore, isDigitB]
  have h9 : propertyCore (47 :: c0 :: s2) = true := by
    simpa [propertyCore] using hs
  simp only [dollar_eq_core _ _ hnl, h1, h2, h3, h4, h5, h6, h7, h8, h9]
  rfl

theorem filter_47_alnums (s : List Nat) (hs : alnumsCore s = true) :
    (47 :: s).filter (fun x => x ≠ 47) = s := by
  have halnum := alnumsCore_mem _ hs
  have : ∀ x ∈ s, x ≠ 47 := by
    intro x hx
    have := halnum x hx
    simp [isAlnumB] at this
    omega
  rw [show (47 :: s).filter (fun x => x ≠ 47) = s.filter (fun x => x ≠ 47) from by simp]
  exact List.filter_eq_self.mpr (fun x hx => by simp [this x hx])

end EngineData

namespace EngineData

/-! ## Integer rendering and parsing lemmas -/

theorem digitsRevF_eq_digits (f : Nat) : ∀ n, n ≤ f →
    digitsRevF f n = Nat.digits 10 n := by
  induction f with
  | zero =>
    intro n hn
    interval_cases n
    simp [digitsRevF]
  | succ f ih =>
    intro n hn
    by_cases hz : n = 0
    · subst hz; simp [digitsRevF]
    · rw [show digitsRevF (f + 1) n = if n = 0 then [] else n % 10 :: digitsRevF f (n / 10) from rfl]
      rw [if_neg hz, ih (n / 10) (by omega)]
      rw [Nat.digits_def' (by norm_num) (Nat.pos_of_ne_zero hz)]

theorem foldl_digits_reverse (L : List Nat) (acc : Nat) :
    List.foldl (fun a d => a * 10 + d) acc L.reverse =
      acc * 10 ^ L.length + Nat.ofDigits 10 L := by
  induction L generalizing acc with
  | nil => simp
  | cons d L2 ih =>
    rw [List.reverse_cons, List.foldl_append, ih acc]
    simp only [List.foldl, Nat.ofDigits_cons, List.length_cons]
    ring

theorem parseNatB_natDecimal (m : Nat) : parseNatB (natDecimal m) = m := by
  by_cases hm : m = 0
  · subst hm; rfl
  · unfold natDecimal parseNatB
    rw [if_neg hm, digitsRevF_eq_digits m m le_rfl, List.foldl_map]
    have hfun : (fun (a x : Nat) => a * 10 + (x + 48 - 48)) = fun a d => a * 10 + d := by
      funext a x
      omega
    rw [hfun, foldl_digits_reverse]
    simp [Nat.ofDigits_digits]

end EngineData

namespace EngineData

theorem natDecimal_ne_nil (m : Nat) : natDecimal m ≠ [] := by
  unfold natDecimal
  by_cases hm : m = 0
  · simp [hm]
  · rw [if_neg hm, digitsRevF_eq_digits m m le_rfl]
    simp [Nat.digits_ne_nil_iff_ne_zero, hm]

theorem natDecimal_all_digits (m : Nat) :
    ∀ x ∈ natDecimal m, isDigitB x = true := by
  unfold natDecimal
  by_cases hm : m = 0
  · simp [hm, isDigitB]
  · rw [if_neg hm, digitsRevF_eq_digits m m le_rfl]
    intro x hx
    simp only [List.mem_map, List.mem_reverse] at hx
    obtain ⟨d, hd, rfl⟩ := hx
    have hlt : d < 10 := Nat.digits_lt_base (by norm_num) hd
    simp [isDigitB]
    omega

theorem classify_Integer_write (n : ℤ) :
    classify (Integer_write n) = some .NUMBER := by
  unfold Integer_write
  by_cases hn : n < 0
  · rw [if_pos hn]
    exact (classify_digits_core _ (natDecimal_ne_nil _) (natDecimal_all_digits _)).2
  · rw [if_neg hn]
    exact (classify_digits_core _ (natDecimal_ne_nil _) (natDecimal_all_digits _)).1

theorem parseIntB_Integer_write (n : ℤ) : parseIntB (Integer_write n) = n := by
  unfold Integer_write
  by_cases hn : n < 0
  · rw [if_pos hn]
    rw [show parseIntB (45 :: natDecimal n.natAbs) = -(parseNatB (natDecimal n.natAbs) : ℤ) from rfl]
    rw [parseNatB_natDecimal]
    omega
  · rw [if_neg hn]
    obtain ⟨d, r, hdr⟩ : ∃ d r, natDecimal n.toNat = d :: r := by
      cases hq : natDecimal n.toNat with
      | nil => exact absurd hq (natDecimal_ne_nil _)
      | cons x xs => exact ⟨_, _, rfl⟩
    have hd : isDigitB d = true := natDecimal_all_digits _ d (by rw [hdr]; simp)
    have hd45 : d ≠ 45 := by simp [isDigitB] at hd; omega
    rw [hdr]
    unfold parseIntB
    split
    · rename_i heq
      have : d = 45 := by simpa using congrArg (fun l => l.headD 0) heq
      omega
    · rw [← hdr, parseNatB_natDecimal]
      omega

theorem simpleTok_digit_tok (n : ℤ) : simpleTokB (Integer_write n) = true := by
  have hall : ∀ x ∈ Integer_write n, isWsB x = false := by
    intro x hx
    unfold Integer_write at hx
    by_cases hn : n < 0
    · rw [if_pos hn] at hx
      rcases List.mem_cons.mp hx with rfl | hx2
      · rfl
      · have := natDecimal_all_digits _ x hx2
        simp [isDigitB] at this
        simp [isWsB]
        omega
    · rw [if_neg hn] at hx
      have := natDecimal_all_digits _ x hx
      simp [isDigitB] at this
      simp [isWsB]
      omega
  have hne : Integer_write n ≠ [] := by
    unfold Integer_write
    by_cases hn : n < 0
    · simp [hn]
    · simpa [hn] using natDecimal_ne_nil n.toNat
  have h40 : (Integer_write n).head? ≠ some 40 := by
    unfold Integer_write
    by_cases hn : n < 0
    · simp [hn]
    · rw [if_neg hn]
      obtain ⟨d, r, hdr⟩ : ∃ d r, natDecimal n.toNat = d :: r := by
        cases hq : natDecimal n.toNat with
        | nil => exact absurd hq (natDecimal_ne_nil _)
        | cons x xs => exact ⟨_, _, rfl⟩
      have hd : isDigitB d = true := natDecimal_all_digits _ d (by rw [hdr]; simp)
      rw [hdr]
      simp [isDigitB] at hd
      simp
      omega
  unfold simpleTokB
  simp only [Bool.and_eq_true, Bool.not_eq_true']
  refine ⟨⟨by simpa using hne, ?_⟩, by simpa using h40⟩
  rw [List.all_eq_true]
  intro x hx
  simp [hall x hx]

end EngineData

namespace EngineData

/-! ## Escape lemmas for String.write -/

theorem escape_eq_escBytes (v : List Nat) :
    pyReplace1 (pyReplace1 v 41 [92, 41]) 40 [92, 40] = escBytes v := by
  induction v with
  | nil => rfl
  | cons b r ih =>
    by_cases h41 : b = 41
    · subst h41
      simp [pyReplace1, escBytes, escByte, ih]
    · by_cases h40 : b = 40
      · subst h40
        simp [pyReplace1, escBytes, escByte, ih]
      · simp [pyReplace1, escBytes, escByte, h41, h40, ih]

theorem escBytes_cons (b : Nat) (r : List Nat) :
    escBytes (b :: r) = escByte b ++ escBytes r := rfl

theorem pairsOK_cons_escBytes (v : List Nat) (h92 : 92 ∉ v) :
    ∀ x, pairsOK (x :: escBytes v) = true := by
  induction v with
  | nil => intro x; rfl
  | cons b r ih =>
    intro x
    have h92r : 92 ∉ r := fun hm => h92 (by simp [hm])
    have hb92 : b ≠ 92 := fun hq => h92 (by simp [hq])
    by_cases h41 : b = 41
    · subst h41
      rw [escBytes_cons, show escByte 41 = [92, 41] from rfl]
      simp [pairsOK, ih h92r 41]
    · by_cases h40 : b = 40
      · subst h40
        rw [escBytes_cons, show escByte 40 = [92, 40] from rfl]
        simp [pairsOK, ih h92r 40]
      · rw [escBytes_cons, show escByte b = [b] from by simp [escByte, h41, h40]]
        simp [pairsOK, h41, ih h92r b]

end EngineData

namespace EngineData

theorem getLast_cons_escBytes_ne92 (v : List Nat) (h92 : 92 ∉ v) :
    ∀ x, x ≠ 92 → ∀ z, (x :: escBytes v).getLast? = some z → z ≠ 92 := by
  induction v with
  | nil =>
    intro x hx z hz
    simp [escBytes] at hz
    omega
  | cons b r ih =>
    intro x hx z hz
    have h92r : 92 ∉ r := fun hm => h92 (by simp [hm])
    have hb92 : b ≠ 92 := fun hq => h92 (by simp [hq])
    by_cases h41 : b = 41
    · subst h41
      rw [escBytes_cons, show escByte 41 = [92, 41] from rfl] at hz
      rw [show x :: (((92 : Nat) :: [41]) ++ escBytes r) = x :: 92 :: 41 :: escBytes r from rfl] at hz
      rw [List.getLast?_cons_cons, List.getLast?_cons_cons] at hz
      exact ih h92r 41 (by omega) z hz
    · by_cases h40 : b = 40
      · subst h40
        rw [escBytes_cons, show escByte 40 = [92, 40] from rfl] at hz
        rw [show x :: (((92 : Nat) :: [40]) ++ escBytes r) = x :: 92 :: 40 :: escBytes r from rfl] at hz
        rw [List.getLast?_cons_cons, List.getLast?_cons_cons] at hz
        exact ih h92r 40 (by omega) z hz
      · rw [escBytes_cons, show escByte b = [b] from by simp [escByte, h41, h40]] at hz
        rw [show x :: ([b] ++ escBytes r) = x :: b :: escBytes r from rfl] at hz
        rw [List.getLast?_cons_cons] at hz
        exact ih h92r b hb92 z hz

theorem filter_92_escBytes (v : List Nat) (h92 : 92 ∉ v) :
    (escBytes v).filter (fun x => x ≠ 92) = v := by
  induction v with
  | nil => rfl
  | cons b r ih =>
    have h92r : 92 ∉ r := fun hm => h92 (by simp [hm])
    have hb92 : b ≠ 92 := fun hq => h92 (by simp [hq])
    by_cases h41 : b = 41
    · subst h41
      rw [escBytes_cons, show escByte 41 = [92, 41] from rfl]
      simp only [List.cons_append, List.nil_append, List.filter]
      norm_num
      simpa using ih h92r
    · by_cases h40 : b = 40
      · subst h40
        rw [escBytes_cons, show escByte 40 = [92, 40] from rfl]
        simp only [List.cons_append, List.nil_append, List.filter]
        norm_num
        simpa using ih h92r
      · rw [escBytes_cons, show escByte b = [b] from by simp [escByte, h41, h40]]
        simp [List.filter, hb92]
        simpa using ih h92r

theorem strTail_cons_ne (b : Nat) (l : List Nat) (h41 : b ≠ 41) (h92 : b ≠ 92) :
    strTail (b :: l) = strTail l := by
  rw [strTail.eq_def]
  simp only [if_neg h41, if_neg h92]

theorem strTail_92_41 (r2 : List Nat) (hne : r2 ≠ []) :
    strTail (92 :: 41 :: r2) = strTail r2 := by
  rw [show strTail (92 :: 41 :: r2) =
      (if r2 = [] then true else strTail r2) from rfl]
  rw [if_neg hne]

theorem strTail_92_40 (r2 : List Nat) :
    strTail (92 :: 40 :: r2) = strTail (40 :: r2) := rfl

theorem strTail_escBytes (v : List Nat) (h92 : 92 ∉ v) :
    strTail (escBytes v ++ [41]) = true := by
  induction v with
  | nil => rfl
  | cons b r ih =>
    have h92r : 92 ∉ r := fun hm => h92 (by simp [hm])
    have hb92 : b ≠ 92 := fun hq => h92 (by simp [hq])
    have hne : escBytes r ++ [41] ≠ [] := by simp
    by_cases h41 : b = 41
    · subst h41
      rw [escBytes_cons, show escByte 41 = [92, 41] from rfl]
      rw [show (((92 : Nat) :: [41]) ++ escBytes r) ++ [41] = 92 :: 41 :: (escBytes r ++ [41]) from by simp]
      rw [strTail_92_41 _ hne]
      exact ih h92r
    · by_cases h40 : b = 40
      · subst h40
        rw [escBytes_cons, show escByte 40 = [92, 40] from rfl]
        rw [show (((92 : Nat) :: [40]) ++ escBytes r) ++ [41] = 92 :: 40 :: (escBytes r ++ [41]) from by simp]
        rw [strTail_92_40, strTail_cons_ne 40 _ (by omega) (by omega)]
        exact ih h92r
      · rw [escBytes_cons, show escByte b = [b] from by simp [escByte, h41, h40]]
        rw [show ([b] ++ escBytes r) ++ [41] = b :: (escBytes r ++ [41]) from by simp]
        rw [strTail_cons_ne b _ h41 hb92]
        exact ih h92r

end EngineData

namespace EngineData

/-! ## UTF-16 round trip -/

theorem decU16_false_pair (a b : Nat) (r : List Nat)
    (hcond : a * 256 + b < 55296 ∨ 57344 ≤ a * 256 + b) :
    decU16 false (a :: b :: r) = (decU16 false r).map ((a * 256 + b) :: ·) := by
  have hb : (decide (a * 256 + b < 55296) || decide (57344 ≤ a * 256 + b)) = true := by
    simp only [Bool.or_eq_true, decide_eq_true_eq]; omega
  match r with
  | [] =>
    show (if (decide (a * 256 + b < 55296) || decide (57344 ≤ a * 256 + b)) = true
      then (decU16 false []).map ((a * 256 + b) :: ·) else _) = _
    rw [if_pos hb]
  | [c] =>
    show (if (decide (a * 256 + b < 55296) || decide (57344 ≤ a * 256 + b)) = true
      then (decU16 false [c]).map ((a * 256 + b) :: ·) else _) = _
    rw [if_pos hb]
  | c :: d :: r2 =>
    show (if (decide (a * 256 + b < 55296) || decide (57344 ≤ a * 256 + b)) = true
      then (decU16 false (c :: d :: r2)).map ((a * 256 + b) :: ·) else _) = _
    rw [if_pos hb]

theorem decU16_false_surr (a b c d : Nat) (r : List Nat)
    (h1 : 55296 ≤ a * 256 + b) (h2 : a * 256 + b < 56320)
    (h3 : 56320 ≤ c * 256 + d) (h4 : c * 256 + d < 57344) :
    decU16 false (a :: b :: c :: d :: r) =
      (decU16 false r).map
        ((65536 + (a * 256 + b - 55296) * 1024 + (c * 256 + d - 56320)) :: ·) := by
  show (if (decide (a * 256 + b < 55296) || decide (57344 ≤ a * 256 + b)) = true
      then (decU16 false (c :: d :: r)).map ((a * 256 + b) :: ·)
      else if a * 256 + b < 56320 then
        (if (decide (56320 ≤ c * 256 + d) && decide (c * 256 + d < 57344)) = true
         then (decU16 false r).map
           ((65536 + (a * 256 + b - 55296) * 1024 + (c * 256 + d - 56320)) :: ·)
         else none)
      else none) = _
  rw [if_neg (by simp only [Bool.or_eq_true, decide_eq_true_eq]; omega)]
  rw [if_pos h2]
  rw [if_pos (by simp only [Bool.and_eq_true, decide_eq_true_eq]; omega)]

theorem decBE_utf16beEnc (cps : List Nat) (h : ∀ cp ∈ cps, validScalar cp = true) :
    decU16 false (utf16beEnc cps) = some cps := by
  induction cps with
  | nil => rfl
  | cons cp r ih =>
    have hcp : cp < 1114112 ∧ (cp < 55296 ∨ 57344 ≤ cp) := by
      simpa [validScalar] using h cp (by simp)
    have hr := ih (fun x hx => h x (by simp [hx]))
    obtain ⟨hmax, hsur⟩ := hcp
    by_cases hlt : cp < 65536
    · rw [show utf16beEnc (cp :: r) = cp / 256 :: cp % 256 :: utf16beEnc r from by
        simp [utf16beEnc, hlt]]
      rw [decU16_false_pair _ _ _ (by omega)]
      have hu : cp / 256 * 256 + cp % 256 = cp := by omega
      rw [hu, hr]
      rfl
    · simp only [not_lt] at hlt
      rw [show utf16beEnc (cp :: r) =
          (55296 + (cp - 65536) / 1024) / 256 :: (55296 + (cp - 65536) / 1024) % 256 ::
          (56320 + (cp - 65536) % 1024) / 256 :: (56320 + (cp - 65536) % 1024) % 256 ::
          utf16beEnc r from by
        rw [utf16beEnc]
        rw [if_neg (by omega)]]
      rw [decU16_false_surr _ _ _ _ _ (by omega) (by omega) (by omega) (by omega)]
      rw [hr]
      rw [show 65536 +
          ((55296 + (cp - 65536) / 1024) / 256 * 256 +
            (55296 + (cp - 65536) / 1024) % 256 - 55296) * 1024 +
          ((56320 + (cp - 65536) % 1024) / 256 * 256 +
            (56320 + (cp - 65536) % 1024) % 256 - 56320) = cp from by omega]
      rfl

end EngineData

namespace EngineData

/-- `String.frombytes` inverts `String.write` on safe text: strip the
parens, drop the backslashes (which are exactly the escape prefixes),
and decode the BOM-tagged big-endian payload. -/
theorem String_frombytes_String_write (cps : List Nat) (hsafe : safeStr cps = true) :
    String_frombytes (String_write cps) = some cps := by
  simp only [safeStr, Bool.and_eq_true, Bool.not_eq_true', List.all_eq_true] at hsafe
  obtain ⟨hval, hnc⟩ := hsafe
  have h92 : 92 ∉ utf16beEnc cps := by
    intro hm
    rw [List.contains_eq_any_beq] at hnc
    simp only [List.any_eq_false] at hnc
    have := hnc 92 hm
    simp at this
  rw [String_write, String_frombytes]
  simp only [escape_eq_escBytes]
  rw [show (40 :: 254 :: 255 :: (escBytes (utf16beEnc cps) ++ [41]) : List Nat).drop 1 =
      (254 :: 255 :: escBytes (utf16beEnc cps)) ++ [41] from by simp]
  rw [List.dropLast_concat]
  rw [pyReplace1_del_filter]
  rw [show (254 :: 255 :: escBytes (utf16beEnc cps) : List Nat).filter (fun x => x ≠ 92) =
      254 :: 255 :: (escBytes (utf16beEnc cps)).filter (fun x => x ≠ 92) from by
    simp [List.filter]]
  rw [filter_92_escBytes _ h92]
  rw [show utf16Decode (254 :: 255 :: utf16beEnc cps) =
      decU16 false (utf16beEnc cps) from by simp [utf16Decode]]
  exact decBE_utf16beEnc cps (fun cp hcp => hval cp hcp)

end EngineData

namespace EngineData

/-- The classifier on a written string token: every class before STRING
in the Enum order misses (the token starts with `(`), and the STRING
pattern matches. -/
theorem classify_string_tok (mid : List Nat) (hst : strTail (mid ++ [41]) = true) :
    classify (40 :: 254 :: 255 :: (mid ++ [41])) = some .STRING := by
  have hnl : endsNl (40 :: 254 :: 255 :: (mid ++ [41])) = false := by
    apply endsNl_false_of_getLast
    rw [show (40 : Nat) :: 254 :: 255 :: (mid ++ [41]) =
        (40 :: 254 :: 255 :: mid) ++ [41] from by simp]
    rw [List.getLast?_concat]
    simp
  have hae : arrayEndCore (40 :: 254 :: 255 :: (mid ++ [41])) = false := rfl
  have has : arrayStartCore (40 :: 254 :: 255 :: (mid ++ [41])) = false := rfl
  have hbo : booleanCore (40 :: 254 :: 255 :: (mid ++ [41])) = false := rfl
  have hde : dictEndCore (40 :: 254 :: 255 :: (mid ++ [41])) = false := rfl
  have hds : dictStartCore (40 :: 254 :: 255 :: (mid ++ [41])) = false := rfl
  have hnoop : noopCore (40 :: 254 :: 255 :: (mid ++ [41])) = false := rfl
  have hnum : numberCore (40 :: 254 :: 255 :: (mid ++ [41])) = false := rfl
  have hnd : numberDecCore (40 :: 254 :: 255 :: (mid ++ [41])) = false := rfl
  have hpr : propertyCore (40 :: 254 :: 255 :: (mid ++ [41])) = false := rfl
  have hstr : stringCore (40 :: 254 :: 255 :: (mid ++ [41])) = true := hst
  unfold classify
  simp only [dollar_eq_core _ _ hnl, hae, has, hbo, hde, hds, hnoop, hnum, hnd, hpr, hstr]
  rfl

end EngineData

namespace EngineData

/-! ## Concrete classifier facts and token helpers -/

theorem classify_dict_start : classify [60, 60] = some Cls.DICT_START := by decide

theorem classify_dict_end2 : classify [62, 62] = some Cls.DICT_END := by decide

theorem classify_array_start : classify [91] = some Cls.ARRAY_START := by decide

theorem classify_array_end : classify [93] = some Cls.ARRAY_END := by decide

theorem classify_true : classify [116, 114, 117, 101] = some Cls.BOOLEAN := by decide

theorem classify_false : classify [102, 97, 108, 115, 101] = some Cls.BOOLEAN := by decide

theorem simpleTokB_spec (t : List Nat) (h : simpleTokB t = true) :
    t ≠ [] ∧ (∀ x ∈ t, isWsB x = false) ∧ t.head? ≠ some 40 := by
  simp only [simpleTokB, Bool.and_eq_true, Bool.not_eq_true', List.all_eq_true,
    decide_eq_true_eq] at h
  obtain ⟨⟨h1, h2⟩, h3⟩ := h
  refine ⟨?_, h2, h3⟩
  intro hq
  subst hq
  simp at h1

theorem tokenizerNext_cons_ws (w : Nat) (d : List Nat) (hw : isWsB w = true) :
    tokenizerNext (w :: d) = tokenizerNext d := by
  have := tokenizerNext_ws_append [w] d (by intro x hx; simp at hx; subst hx; exact hw)
  simpa using this

theorem tokenizerNext_congr_dropWhile (d1 d2 : List Nat)
    (h : d1.dropWhile (fun b => isWsB b) = d2.dropWhile (fun b => isWsB b)) :
    tokenizerNext d1 = tokenizerNext d2 := by
  unfold tokenizerNext
  rw [h]

/-! ## Entry accumulation helpers -/

theorem appendEntries_nil_right (acc : Entries) : appendEntries acc .nil = acc := by
  match acc with
  | .nil => rfl
  | .cons k v r => simp [appendEntries, appendEntries_nil_right r]

theorem setItem_not_mem (acc : Entries) (k : List Nat) (v : El)
    (h : keyMem k acc = false) :
    setItem acc k v = appendEntries acc (.cons k v .nil) := by
  match acc with
  | .nil => rfl
  | .cons k0 v0 r =>
    simp only [keyMem, Bool.or_eq_false_iff, decide_eq_false_iff_not] at h
    simp [setItem, appendEntries, h.1, setItem_not_mem r k v h.2]

theorem appendEntries_assoc (a b c : Entries) :
    appendEntries (appendEntries a b) c = appendEntries a (appendEntries b c) := by
  match a with
  | .nil => rfl
  | .cons k v r => simp [appendEntries, appendEntries_assoc r b c]

theorem keyMem_appendEntries (k : List Nat) (a b : Entries) :
    keyMem k (appendEntries a b) = (keyMem k a || keyMem k b) := by
  match a with
  | .nil => simp [appendEntries, keyMem]
  | .cons k0 v0 r => simp [appendEntries, keyMem, keyMem_appendEntries k r b, Bool.or_assoc]

theorem disjointKeys_append (es acc : Entries) (k : List Nat) (v : El)
    (hd : disjointKeys es acc = true) (hk : keyMem k es = false) :
    disjointKeys es (appendEntries acc (.cons k v .nil)) = true := by
  match es with
  | .nil => rfl
  | .cons k0 v0 r =>
    simp only [disjointKeys, Bool.and_eq_true, Bool.not_eq_true'] at hd ⊢
    simp only [keyMem, Bool.or_eq_false_iff, decide_eq_false_iff_not] at hk
    constructor
    · rw [keyMem_appendEntries]
      simp [hd.1, keyMem, Ne.symm hk.1]
    · exact disjointKeys_append r acc k v hd.2 hk.2

end EngineData
